import Mathlib

/-!
Shallow embedding of the two scripts of this repository:
`creating_local_data.py` (the Collector) and
`app_with_chroma_and_fda_api.py` (the Resolver).

Python strings are modelled as Lean `String` (a structure over `List Char`);
Python string operations (`strip`, `lower`, `split(",")`, `", ".join`) are
embedded as explicit functions over the character list. `str.strip()` is
modelled over the ASCII whitespace characters; `str.lower()` is modelled with
`Char.toLower` (basic-latin lowering), which agrees with Python on the ASCII
drug-name data these scripts handle.

Network effects are made explicit: the RxTerms fallback service is a
parameter `fetch : String → Option FallbackResult` (`none` = request failed
or response unusable), the FDA label source of the Collector is a list of
batches (the batch at index `i` is what `fetch_fda_labels(limit=10,
skip=10*i)` returns; past the end of the list the API returns no results),
and the single FDA point lookup of the Resolver is an
`Option FdaResponse` (`none` = the request itself raised).

A Python `IndexError` (reachable in `extract_complete_record` when an
`openfda` field is present but maps to an empty list) is modelled as `none`
in an outer `Option`: `none` means the call raised, `some x` means it
returned `x`.
-/

/-! ### Python string primitives -/

/-- The ASCII whitespace characters stripped by Python `str.strip()`:
space, tab, newline, carriage return, vertical tab, form feed. -/
def pyIsSpace (c : Char) : Bool :=
  c.toNat = 32 || c.toNat = 9 || c.toNat = 10 || c.toNat = 13 ||
  c.toNat = 11 || c.toNat = 12

/-- Python `str.strip()` on the character list: drop whitespace from both
ends. -/
def stripChars (l : List Char) : List Char :=
  ((l.dropWhile pyIsSpace).reverse.dropWhile pyIsSpace).reverse

/-- Python `s.strip()`. -/
def pyStrip (s : String) : String :=
  ⟨stripChars s.data⟩

/-- Python `s.lower()` (basic-latin lowering). -/
def pyLower (s : String) : String :=
  ⟨s.data.map Char.toLower⟩

/-- Python `s.split(",")` on the character list: cut at every comma,
never collapsing, so that the empty string splits to `[""]`. -/
def splitCommaChars : List Char → List (List Char)
  | [] => [[]]
  | c :: cs =>
    if c = ',' then [] :: splitCommaChars cs
    else
      match splitCommaChars cs with
      | [] => [[c]]
      | p :: ps => (c :: p) :: ps

/-- Python `s.split(",")`. -/
def pySplitComma (s : String) : List String :=
  (splitCommaChars s.data).map String.mk

/-- Concatenate pieces with a separator (`sep.join(l)` on character lists). -/
def joinChars (sep : List Char) : List (List Char) → List Char
  | [] => []
  | [x] => x
  | x :: y :: ys => x ++ sep ++ joinChars sep (y :: ys)

/-- Python `", ".join(l)`. -/
def pyJoinCommaSpace (l : List String) : String :=
  ⟨joinChars [',', ' '] (l.map String.data)⟩

/-- Python `list(dict.fromkeys(l))`: remove duplicates keeping the first
occurrence of each element, via an accumulator of keys already seen. -/
def dedupFirstAux (seen : List String) : List String → List String
  | [] => []
  | x :: xs =>
    if x ∈ seen then dedupFirstAux seen xs
    else x :: dedupFirstAux (x :: seen) xs

/-- Python `list(dict.fromkeys(l))`. -/
def dedupFirst (l : List String) : List String :=
  dedupFirstAux [] l

/-- Python truthiness of strings: `a or b` is `a` when `a` is non-empty. -/
def pyOr (a b : String) : String :=
  if a = "" then b else a

/-! ### Data model of the Collector (`creating_local_data.py`) -/

/-- A complete drug record, as assembled by `extract_complete_record` and
persisted to the CSV. The two ingredient fields are single comma-joined
strings, matching the Python dict with keys "Brand Name", "Generic Name",
"Manufacturer", "Application Number", "Dosage Form", "Active Ingredients",
"Inactive Ingredients". -/
structure DrugRecord where
  brandName : String
  genericName : String
  manufacturer : String
  applicationNumber : String
  dosageForm : String
  activeIngredients : String
  inactiveIngredients : String
deriving DecidableEq, Repr

/-- The `openfda` sub-object of a raw FDA label. Each field is a JSON list
of strings when present (`some`) and absent otherwise (`none`); an absent
whole `openfda` object behaves as one with every field absent. -/
structure OpenFda where
  brand_name : Option (List String)
  generic_name : Option (List String)
  manufacturer_name : Option (List String)
  application_number : Option (List String)
deriving DecidableEq, Repr

/-- A raw FDA label, restricted to the fields the Collector reads. -/
structure Label where
  openfda : OpenFda
  dosage_form : Option (List String)
  active_ingredient : Option (List String)
  inactive_ingredient : Option (List String)
deriving DecidableEq, Repr

/-- Models `openfda.get(field, [""])[0].strip()`: the default `[""]` yields `""`
for an absent field, a present non-empty list yields its stripped first
element, and a present empty list raises `IndexError` (modelled `none`). -/
def getFirstStrip (field : Option (List String)) : Option String :=
  match field with
  | none => some ""
  | some [] => none
  | some (x :: _) => some (pyStrip x)

/-- The identity fields and ingredient lists read off a label by the first
block of `extract_complete_record` (lines 36-43 of
`creating_local_data.py`). -/
structure LabelFields where
  brand : String
  generic : String
  manufacturer : String
  app_no : String
  dosage_form : String
  active : List String
  inactive : List String
deriving DecidableEq, Repr

/-- The field-extraction prefix of `extract_complete_record`: five
`get(...)[0].strip()` reads (each can raise on a present-but-empty list,
modelled as `none`) and the two ingredient reads
`label.get("active_ingredient", [])` / `label.get("inactive_ingredient", [])`. -/
def extractFields (label : Label) : Option LabelFields :=
  match getFirstStrip label.openfda.brand_name,
        getFirstStrip label.openfda.generic_name,
        getFirstStrip label.openfda.manufacturer_name,
        getFirstStrip label.openfda.application_number,
        getFirstStrip label.dosage_form with
  | some b, some g, some m, some a, some d =>
    some ⟨b, g, m, a, d, label.active_ingredient.getD [],
          label.inactive_ingredient.getD []⟩
  | _, _, _, _, _ => none

/-- The result of `fetch_rxterms_ingredients`: the `active_ingredient` /
`inactive_ingredient` lists of the RxTerms response (each defaulting to
`[]` when the key is missing). A failed or short response is `none`. -/
structure FallbackResult where
  active : List String
  inactive : List String
deriving DecidableEq, Repr

/-- The function `extract_complete_record(label)`, with the RxTerms service abstracted
as `fetch`. The outer `Option` is `none` when the extraction prefix raises
`IndexError`; otherwise the result carries the emitted record (`none` for a
discarded label) together with the list of drug names the fallback service
was queried with (so that fallback invocations are observable). -/
def extract_complete_record (fetch : String → Option FallbackResult)
    (label : Label) : Option (Option DrugRecord × List String) :=
  match extractFields label with
  | none => none
  | some f =>
    -- If both active & inactive exist in label, we have full data
    if f.active ≠ [] ∧ f.inactive ≠ [] then
      some (some ⟨f.brand, f.generic, f.manufacturer, f.app_no, f.dosage_form,
                  pyJoinCommaSpace f.active, pyJoinCommaSpace f.inactive⟩, [])
    else
      -- Fallback to RxTerms API, keyed by `brand or generic`
      let key := pyOr f.brand f.generic
      match fetch key with
      | some fb =>
        if fb.active ≠ [] ∧ fb.inactive ≠ [] then
          some (some ⟨pyOr f.brand "Unknown brand",
                      pyOr f.generic "Unknown generic",
                      pyOr f.manufacturer "Unknown",
                      pyOr f.app_no "Unknown",
                      pyOr f.dosage_form "Unknown",
                      pyJoinCommaSpace fb.active,
                      pyJoinCommaSpace fb.inactive⟩, [key])
        else some (none, [key])
      | none => some (none, [key])

/-! ### Collector loop (`collect_50_complete_drugs`) -/

/-- The inner `for lab in labels` loop of `collect_50_complete_drugs`:
extract each label, drop records whose application number was already seen,
append new ones, and break out as soon as 50 records are collected.
`none` propagates an `IndexError` raised while extracting a label. -/
def collectBatch (fetch : String → Option FallbackResult) :
    List Label → List DrugRecord → List String →
    Option (List DrugRecord × List String)
  | [], collected, seen => some (collected, seen)
  | lab :: rest, collected, seen =>
    match extract_complete_record fetch lab with
    | none => none
    | some (none, _) => collectBatch fetch rest collected seen
    | some (some rec, _) =>
      if rec.applicationNumber ∈ seen then collectBatch fetch rest collected seen
      else
        if 50 ≤ (collected ++ [rec]).length then
          some (collected ++ [rec], rec.applicationNumber :: seen)
        else
          collectBatch fetch rest (collected ++ [rec])
            (rec.applicationNumber :: seen)

/-- The outer `while len(collected) < 50` loop: the batch at the head of
`batches` is what `fetch_fda_labels` returns at the current offset; an
exhausted source returns no labels. An empty batch breaks the loop. -/
def collectLoop (fetch : String → Option FallbackResult) :
    List (List Label) → List DrugRecord → List String →
    Option (List DrugRecord)
  | [], collected, _ => some collected
  | batch :: rest, collected, seen =>
    if 50 ≤ collected.length then some collected
    else if batch.isEmpty then some collected
    else
      match collectBatch fetch batch collected seen with
      | none => none
      | some (c2, s2) => collectLoop fetch rest c2 s2

/-- The function `collect_50_complete_drugs()`, starting from an empty
collection and an empty `seen_apps` set. -/
def collect_50_complete_drugs (fetch : String → Option FallbackResult)
    (batches : List (List Label)) : Option (List DrugRecord) :=
  collectLoop fetch batches [] []

/-- The collection loop with the 50-record cap removed (the inner loop).
Used to express how many completable, uniquely-keyed labels the source
yields before an empty batch stops it. -/
def collectBatchAll (fetch : String → Option FallbackResult) :
    List Label → List DrugRecord → List String →
    Option (List DrugRecord × List String)
  | [], collected, seen => some (collected, seen)
  | lab :: rest, collected, seen =>
    match extract_complete_record fetch lab with
    | none => none
    | some (none, _) => collectBatchAll fetch rest collected seen
    | some (some rec, _) =>
      if rec.applicationNumber ∈ seen then collectBatchAll fetch rest collected seen
      else
        collectBatchAll fetch rest (collected ++ [rec])
          (rec.applicationNumber :: seen)

/-- The collection loop with the 50-record cap removed (the outer loop);
still stops at an empty batch, like the capped loop. -/
def collectLoopAll (fetch : String → Option FallbackResult) :
    List (List Label) → List DrugRecord → List String →
    Option (List DrugRecord)
  | [], collected, _ => some collected
  | batch :: rest, collected, seen =>
    if batch.isEmpty then some collected
    else
      match collectBatchAll fetch batch collected seen with
      | none => none
      | some (c2, s2) => collectLoopAll fetch rest c2 s2

/-! ### Ingredient normalization (`normalize_ingredients`) -/

/-- The per-field body of `normalize_ingredients`: split on commas, strip
each piece, drop empty pieces, remove duplicates keeping first occurrences,
and rejoin with `", "`. -/
def normalizeIngrString (s : String) : String :=
  pyJoinCommaSpace (dedupFirst (((pySplitComma s).map pyStrip).filter
    (fun i => i ≠ "")))

/-- The item list built inside `normalizeIngrString` before rejoining:
`list(dict.fromkeys([i.strip() for i in s.split(",") if i.strip()]))`. -/
def normItems (s : String) : List String :=
  dedupFirst (((pySplitComma s).map pyStrip).filter (fun i => i ≠ ""))

/-- The function `normalize_ingredients(records)`: normalize the two ingredient fields of
every record (the Python in-place mutation over the list becomes a map). -/
def normalize_ingredients (records : List DrugRecord) : List DrugRecord :=
  records.map fun rec =>
    { rec with
      activeIngredients := normalizeIngrString rec.activeIngredients,
      inactiveIngredients := normalizeIngrString rec.inactiveIngredients }

/-! ### Resolver (`app_with_chroma_and_fda_api.py`) -/

/-- The three ways one iteration of the interactive loop can go. -/
inductive LoopAction where
  | EXIT
  | LOCAL
  | REMOTE
deriving DecidableEq, Repr

/-- Models `local_drug_names = set(name.lower().strip() for name in
df["Brand Name"])` as the list of lower-cased, stripped brand names
(membership is all the set is used for). -/
def local_drug_names (brandNames : List String) : List String :=
  brandNames.map fun name => pyStrip (pyLower name)

/-- One iteration of the `while True` loop over a raw input line:
`query = input(...).strip()`; exit when `query.lower() == "exit"`;
otherwise route to the local RAG path when `query.lower().strip()` is in
`local_drug_names`, else to the remote FDA path. -/
def loop_step (localNames : List String) (rawInput : String) : LoopAction :=
  let query := pyStrip rawInput
  if pyLower query = "exit" then .EXIT
  else if pyStrip (pyLower query) ∈ localNames then .LOCAL
  else .REMOTE

/-- One result object of the FDA label point-lookup response; each
ingredient key may be absent. -/
structure FdaResult where
  active_ingredient : Option (List String)
  inactive_ingredient : Option (List String)
deriving DecidableEq, Repr

/-- The FDA label point-lookup response: an HTTP status and the parsed
JSON body's `results` key (`none` when the key is missing). -/
structure FdaResponse where
  status : Nat
  results : Option (List FdaResult)
deriving DecidableEq, Repr

/-- The function `fetch_drug_from_fda(drug_name)`, with the HTTP exchange abstracted as
`resp` (`none` = the request or JSON parse raised; the `except` block turns
any exception into `None`). `raise_for_status()` raises for 4xx/5xx
statuses. On a body with a non-empty `results` list, format the first
result's ingredients, substituting "N/A" for an absent ingredient key. -/
def fetch_drug_from_fda (resp : Option FdaResponse) : Option String :=
  match resp with
  | none => none
  | some r =>
    if 400 ≤ r.status ∧ r.status < 600 then none
    else
      match r.results with
      | none => none
      | some [] => none
      | some (first :: _) =>
        some ("Active Ingredients: " ++
          (match first.active_ingredient with
           | some l => pyJoinCommaSpace l
           | none => "N/A") ++
          "\nInactive Ingredients: " ++
          (match first.inactive_ingredient with
           | some l => pyJoinCommaSpace l
           | none => "N/A"))

/-- What the REMOTE branch of the interactive loop prints: the formatted
FDA result on success, the literal not-found message otherwise. -/
def remote_path_output (resp : Option FdaResponse) : String :=
  match fetch_drug_from_fda resp with
  | some s => s
  | none => "Drug not found in local DB or FDA API."

/-! ### Spec-side description used by the amended C9 -/

/-- Spec-side value of one identity field: the stripped first element of
the field's list when it is present (and non-empty), the empty string when
it is absent. (On a present-but-empty list the code raises instead; the
value returned here for that case is never relied upon.) -/
def firstOrEmpty : Option (List String) → String
  | none => ""
  | some [] => ""
  | some (x :: _) => pyStrip x

/-! ### Concrete fixtures for witnesses -/

/-- A fallback service whose every lookup fails. -/
def fetchNone : String → Option FallbackResult := fun _ => none

/-- A fallback service answering every lookup with fixed ingredients. -/
def fetchAB : String → Option FallbackResult :=
  fun _ => some ⟨["FA"], ["FB"]⟩

/-- A label complete on its own: both ingredient lists present. -/
def labFull : Label :=
  { openfda := { brand_name := some ["B1"], generic_name := some ["G1"],
                 manufacturer_name := some ["M1"],
                 application_number := some ["A1"] },
    dosage_form := some ["D1"],
    active_ingredient := some ["X", "Y"],
    inactive_ingredient := some ["Z"] }

/-- A second complete label with the same application number as `labFull`. -/
def labDup : Label :=
  { openfda := { brand_name := some ["B2"], generic_name := some ["G2"],
                 manufacturer_name := some ["M2"],
                 application_number := some ["A1"] },
    dosage_form := some ["D2"],
    active_ingredient := some ["U"],
    inactive_ingredient := some ["V"] }

/-- A complete label with a fresh application number. -/
def labThird : Label :=
  { openfda := { brand_name := some ["B3"], generic_name := some ["G3"],
                 manufacturer_name := some ["M3"],
                 application_number := some ["A3"] },
    dosage_form := some ["D3"],
    active_ingredient := some ["P"],
    inactive_ingredient := some ["Q"] }

/-- The record `labFull` completes to. -/
def recFull : DrugRecord :=
  ⟨"B1", "G1", "M1", "A1", "D1", "X, Y", "Z"⟩

/-- The record `labThird` completes to. -/
def recThird : DrugRecord :=
  ⟨"B3", "G3", "M3", "A3", "D3", "P", "Q"⟩

/-- A label whose inactive ingredient list is missing and whose generic
name is absent, so the fallback lookup is keyed by the brand name. -/
def labMiss : Label :=
  { openfda := { brand_name := some ["B1"], generic_name := none,
                 manufacturer_name := some ["M1"],
                 application_number := some ["A9"] },
    dosage_form := some ["D1"],
    active_ingredient := some ["X"],
    inactive_ingredient := none }

/-! ### Lemmas about the string primitives -/

theorem char_toNat_ofNat {n : Nat} (h : n < 55296) :
    (Char.ofNat n).toNat = n := by
  rw [Char.ofNat, dif_pos (Or.inl h)]
  rfl

theorem pyIsSpace_toLower (c : Char) :
    pyIsSpace (Char.toLower c) = pyIsSpace c := by
  unfold Char.toLower
  by_cases h : c.toNat ≥ 65 ∧ c.toNat ≤ 90
  · rw [if_pos h]
    have h2 : (Char.ofNat (c.toNat + 32)).toNat = c.toNat + 32 :=
      char_toNat_ofNat (by omega)
    unfold pyIsSpace
    rw [h2]
    obtain ⟨h65, _⟩ := h
    have hl : ∀ m : Nat, 65 ≤ m →
        ((m = 32 || m = 9 || m = 10 || m = 13 || m = 11 || m = 12 : Bool)
          = false) := by
      intro m hm
      simp only [Bool.or_eq_false_iff, decide_eq_false_iff_not]
      omega
    rw [hl _ (by omega), hl _ h65]
  · rw [if_neg h]

theorem dropWhile_eq_self_of_prefix {p : Char → Bool} {l l2 : List Char}
    (hpre : l <+: l2) (h : List.dropWhile p l2 = l2) :
    List.dropWhile p l = l := by
  cases l with
  | nil => rfl
  | cons x xs =>
    obtain ⟨t, ht⟩ := hpre
    subst ht
    rw [List.cons_append, List.dropWhile_cons] at h
    by_cases hx : p x
    · rw [if_pos hx] at h
      have hle : (List.dropWhile p (xs ++ t)).length ≤ (xs ++ t).length :=
        (List.dropWhile_sublist p).length_le
      rw [h] at hle
      simp only [List.length_cons] at hle
      omega
    · rw [List.dropWhile_cons, if_neg hx]

theorem stripChars_eq_rdrop (l : List Char) :
    stripChars l = List.rdropWhile pyIsSpace (l.dropWhile pyIsSpace) := rfl

theorem stripChars_idem (l : List Char) :
    stripChars (stripChars l) = stripChars l := by
  rw [stripChars_eq_rdrop l, stripChars_eq_rdrop]
  have h1 : List.dropWhile pyIsSpace
      (List.rdropWhile pyIsSpace (l.dropWhile pyIsSpace)) =
      List.rdropWhile pyIsSpace (l.dropWhile pyIsSpace) :=
    dropWhile_eq_self_of_prefix (List.rdropWhile_prefix _ _)
      (List.dropWhile_idempotent _ _)
  rw [h1, List.rdropWhile_idempotent]

theorem pyStrip_idem (s : String) : pyStrip (pyStrip s) = pyStrip s :=
  congrArg String.mk (stripChars_idem s.data)

theorem stripChars_map_toLower (l : List Char) :
    stripChars (l.map Char.toLower) = (stripChars l).map Char.toLower := by
  have hp : pyIsSpace ∘ Char.toLower = pyIsSpace := funext pyIsSpace_toLower
  unfold stripChars
  rw [List.dropWhile_map, hp, ← List.map_reverse, List.dropWhile_map, hp,
    ← List.map_reverse]

theorem pyLower_pyStrip (s : String) :
    pyLower (pyStrip s) = pyStrip (pyLower s) :=
  congrArg String.mk (stripChars_map_toLower s.data).symm

/-! ### Claim C1 -/

/-- C1: a non-exit query routes to LOCAL exactly when its lower-cased,
whitespace-trimmed form is a member of the local name set, and to REMOTE
otherwise. -/
theorem query_routing_local_iff (names : List String) (raw : String)
    (hne : pyLower (pyStrip raw) ≠ "exit") :
    (loop_step names raw = .LOCAL ↔ pyStrip (pyLower raw) ∈ names) ∧
    (loop_step names raw = .REMOTE ↔ pyStrip (pyLower raw) ∉ names) := by
  have hkey : pyStrip (pyLower (pyStrip raw)) = pyStrip (pyLower raw) := by
    rw [pyLower_pyStrip, pyStrip_idem]
  unfold loop_step
  rw [if_neg hne, hkey]
  by_cases hm : pyStrip (pyLower raw) ∈ names
  · simp [hm]
  · simp [hm]

/-- Witness for C1, at the spec's own example: with local name set
`{"aspirin", "tylenol"}` (derived from brand names "Aspirin", "Tylenol"),
the query "  Aspirin " routes LOCAL and "ibuprofen" routes REMOTE. -/
theorem query_routing_local_iff_witness :
    pyLower (pyStrip "  Aspirin ") ≠ "exit" ∧
    loop_step (local_drug_names ["Aspirin", "Tylenol"]) "  Aspirin " =
      .LOCAL ∧
    loop_step (local_drug_names ["Aspirin", "Tylenol"]) "ibuprofen" =
      .REMOTE :=
  ⟨by decide,
   (query_routing_local_iff (local_drug_names ["Aspirin", "Tylenol"])
     "  Aspirin " (by decide)).1.mpr (by decide),
   (query_routing_local_iff (local_drug_names ["Aspirin", "Tylenol"])
     "ibuprofen" (by decide)).2.mpr (by decide)⟩

/-! ### Claims C2, C3, C9 -/

theorem getFirstStrip_eq_firstOrEmpty (o : Option (List String))
    (ho : o ≠ some []) : getFirstStrip o = some (firstOrEmpty o) := by
  match o with
  | none => rfl
  | some [] => exact absurd rfl ho
  | some (x :: _) => rfl

/-- C9 counterexample: on a label whose `openfda.brand_name` is present but
maps to the empty list, field extraction does not succeed (the Python code
raises `IndexError` at `openfda.get("brand_name", [""])[0]`), refuting the
claim that extraction succeeds on every well-formed label. -/
theorem extract_fields_total_cex :
    extractFields
      { openfda := { brand_name := some [], generic_name := none,
                     manufacturer_name := none, application_number := none },
        dosage_form := none, active_ingredient := some ["x"],
        inactive_ingredient := some ["y"] } = none := by decide

/-- C9 (amended): for every label none of whose identity fields is a
present-but-empty list, extraction succeeds and returns the stripped first
element of each present field and the empty string for each absent field
(and the ingredient lists, defaulting to empty). -/
theorem extract_fields_amended (label : Label)
    (hb : label.openfda.brand_name ≠ some [])
    (hg : label.openfda.generic_name ≠ some [])
    (hm : label.openfda.manufacturer_name ≠ some [])
    (ha : label.openfda.application_number ≠ some [])
    (hd : label.dosage_form ≠ some []) :
    extractFields label =
      some ⟨firstOrEmpty label.openfda.brand_name,
            firstOrEmpty label.openfda.generic_name,
            firstOrEmpty label.openfda.manufacturer_name,
            firstOrEmpty label.openfda.application_number,
            firstOrEmpty label.dosage_form,
            label.active_ingredient.getD [],
            label.inactive_ingredient.getD []⟩ := by
  unfold extractFields
  rw [getFirstStrip_eq_firstOrEmpty _ hb, getFirstStrip_eq_firstOrEmpty _ hg,
    getFirstStrip_eq_firstOrEmpty _ hm, getFirstStrip_eq_firstOrEmpty _ ha,
    getFirstStrip_eq_firstOrEmpty _ hd]

/-- Witness for the amended C9 at a concrete label with one present field
and several absent ones. -/
theorem extract_fields_amended_witness :
    extractFields
      { openfda := { brand_name := some ["  Advil "], generic_name := none,
                     manufacturer_name := none, application_number := none },
        dosage_form := none, active_ingredient := none,
        inactive_ingredient := some ["w"] } =
      some ⟨"Advil", "", "", "", "", [], ["w"]⟩ :=
  (extract_fields_amended _ (by decide) (by decide) (by decide) (by decide)
    (by decide)).trans (by decide)

/-- C2: a label carrying both ingredient lists completes to a record whose
ingredient fields are exactly the label's own lists joined with ", ", for
every fallback service, and the fallback is never queried (empty call log). -/
theorem primary_path_uses_label_ingredients
    (fetch : String → Option FallbackResult) (label : Label)
    (f : LabelFields) (hf : extractFields label = some f)
    (ha : f.active ≠ []) (hi : f.inactive ≠ []) :
    extract_complete_record fetch label =
      some (some ⟨f.brand, f.generic, f.manufacturer, f.app_no,
                  f.dosage_form, pyJoinCommaSpace f.active,
                  pyJoinCommaSpace f.inactive⟩, []) := by
  simp only [extract_complete_record, hf]
  rw [if_pos ⟨ha, hi⟩]

/-- Witness for C2: a concrete complete label emits its own ingredients
and the (always-failing) fallback is not consulted. -/
theorem primary_path_uses_label_ingredients_witness :
    extract_complete_record fetchNone labFull =
      some (some ⟨"B1", "G1", "M1", "A1", "D1", "X, Y", "Z"⟩, []) :=
  (primary_path_uses_label_ingredients fetchNone labFull
    ⟨"B1", "G1", "M1", "A1", "D1", ["X", "Y"], ["Z"]⟩
    (by decide) (by decide) (by decide)).trans (by decide)

/-- C3: a label missing an ingredient list triggers exactly one fallback
lookup, keyed by the brand name (or the generic name when the brand is
empty); a fallback answer with both lists non-empty yields a record built
from the fallback ingredients (fully replacing the label's) with
"Unknown brand" / "Unknown generic" / "Unknown" substituted for empty
identity fields, and any other fallback outcome yields no record. -/
theorem fallback_path_spec (fetch : String → Option FallbackResult)
    (label : Label) (f : LabelFields) (hf : extractFields label = some f)
    (hmiss : f.active = [] ∨ f.inactive = []) :
    extract_complete_record fetch label =
      some ((match fetch (pyOr f.brand f.generic) with
             | some fb =>
               if fb.active ≠ [] ∧ fb.inactive ≠ [] then
                 some ⟨pyOr f.brand "Unknown brand",
                       pyOr f.generic "Unknown generic",
                       pyOr f.manufacturer "Unknown",
                       pyOr f.app_no "Unknown",
                       pyOr f.dosage_form "Unknown",
                       pyJoinCommaSpace fb.active,
                       pyJoinCommaSpace fb.inactive⟩
               else none
             | none => none),
            [pyOr f.brand f.generic]) := by
  have hcond : ¬(f.active ≠ [] ∧ f.inactive ≠ []) := by
    rcases hmiss with h | h <;> simp [h]
  simp only [extract_complete_record, hf]
  rw [if_neg hcond]
  cases hfb : fetch (pyOr f.brand f.generic) with
  | none => rfl
  | some fb =>
    by_cases hc : fb.active ≠ [] ∧ fb.inactive ≠ []
    · simp only [if_pos hc]
    · simp only [if_neg hc]

/-- Witness for C3: a concrete label with a missing inactive list and an
absent generic name is completed from the fallback's ingredients, keyed by
its brand name; the same label is discarded when the fallback fails. -/
theorem fallback_path_spec_witness :
    extract_complete_record fetchAB labMiss =
      some (some ⟨"B1", "Unknown generic", "M1", "A9", "D1", "FA", "FB"⟩,
            ["B1"]) ∧
    extract_complete_record fetchNone labMiss = some (none, ["B1"]) :=
  ⟨(fallback_path_spec fetchAB labMiss ⟨"B1", "", "M1", "A9", "D1", ["X"], []⟩
      (by decide) (by decide)).trans (by decide),
   (fallback_path_spec fetchNone labMiss ⟨"B1", "", "M1", "A9", "D1", ["X"], []⟩
      (by decide) (by decide)).trans (by decide)⟩

/-! ### Claims C7, C8 -/

/-- C7: every failure of the FDA point lookup — a raised exception, an HTTP
error status (4xx/5xx), a missing `results` key, or an empty `results`
list — makes the REMOTE branch print exactly the literal not-found message
(and `fetch_drug_from_fda` is total, so no exception reaches the loop). -/
theorem remote_failure_not_found (resp : Option FdaResponse)
    (hfail : resp = none
      ∨ (∃ r, resp = some r ∧ 400 ≤ r.status ∧ r.status < 600)
      ∨ (∃ r, resp = some r ∧ r.results = none)
      ∨ (∃ r, resp = some r ∧ r.results = some [])) :
    remote_path_output resp = "Drug not found in local DB or FDA API." := by
  rcases hfail with h | ⟨r, hr, hs⟩ | ⟨r, hr, hres⟩ | ⟨r, hr, hres⟩
  · rw [h]; rfl
  · subst hr
    simp only [remote_path_output, fetch_drug_from_fda, if_pos hs]
  · subst hr
    simp only [remote_path_output, fetch_drug_from_fda, hres, ite_self]
  · subst hr
    simp only [remote_path_output, fetch_drug_from_fda, hres, ite_self]

/-- Witness for C7 at the spec's failure examples: an HTTP 500 response
(even one carrying results), a 200 response with empty `results`, and a
raised exception all print the not-found message. -/
theorem remote_failure_not_found_witness :
    remote_path_output (some ⟨500, some [⟨some ["X"], some ["Y"]⟩]⟩) =
      "Drug not found in local DB or FDA API." ∧
    remote_path_output (some ⟨200, some []⟩) =
      "Drug not found in local DB or FDA API." ∧
    remote_path_output none = "Drug not found in local DB or FDA API." :=
  ⟨remote_failure_not_found (some ⟨500, some [⟨some ["X"], some ["Y"]⟩]⟩)
     (Or.inr (Or.inl ⟨_, rfl, by decide⟩)),
   remote_failure_not_found (some ⟨200, some []⟩)
     (Or.inr (Or.inr (Or.inr ⟨_, rfl, rfl⟩))),
   remote_failure_not_found none (Or.inl rfl)⟩

/-- C8: on a successful FDA point lookup (non-error status, at least one
result), the REMOTE branch prints the first result's ingredients in the
format "Active Ingredients: ...\nInactive Ingredients: ...", joining each
present list with ", " and substituting "N/A" for an absent field. -/
theorem remote_success_format (r : FdaResponse) (first : FdaResult)
    (rest : List FdaResult) (hst : r.status < 400)
    (hres : r.results = some (first :: rest)) :
    remote_path_output (some r) =
      "Active Ingredients: " ++
        (match first.active_ingredient with
         | some l => pyJoinCommaSpace l
         | none => "N/A") ++
      "\nInactive Ingredients: " ++
        (match first.inactive_ingredient with
         | some l => pyJoinCommaSpace l
         | none => "N/A") := by
  have hcond : ¬(400 ≤ r.status ∧ r.status < 600) := by omega
  simp only [remote_path_output, fetch_drug_from_fda, if_neg hcond, hres]

/-- Witness for C8 at the spec's example: a result with
`active_ingredient: ["X"]` and no `inactive_ingredient` prints
"Active Ingredients: X\nInactive Ingredients: N/A". -/
theorem remote_success_format_witness :
    remote_path_output (some ⟨200, some [⟨some ["X"], none⟩]⟩) =
      "Active Ingredients: X\nInactive Ingredients: N/A" :=
  (remote_success_format ⟨200, some [⟨some ["X"], none⟩]⟩ ⟨some ["X"], none⟩
    [] (by decide) rfl).trans (by decide)

/-! ### Claim C10 -/

/-- C10: `normalize_ingredients` preserves the number and order of
records and leaves every identity field (brand, generic, manufacturer,
application number, dosage form) of every record unchanged; only the two
ingredient fields are rewritten. -/
theorem normalize_ingredients_frame (records : List DrugRecord) :
    (normalize_ingredients records).length = records.length ∧
    (normalize_ingredients records).map DrugRecord.brandName =
      records.map DrugRecord.brandName ∧
    (normalize_ingredients records).map DrugRecord.genericName =
      records.map DrugRecord.genericName ∧
    (normalize_ingredients records).map DrugRecord.manufacturer =
      records.map DrugRecord.manufacturer ∧
    (normalize_ingredients records).map DrugRecord.applicationNumber =
      records.map DrugRecord.applicationNumber ∧
    (normalize_ingredients records).map DrugRecord.dosageForm =
      records.map DrugRecord.dosageForm := by
  refine ⟨?_, ?_, ?_, ?_, ?_, ?_⟩ <;>
    simp [normalize_ingredients, List.map_map, Function.comp]

/-! ### Claim C4: deduplication by application number -/

theorem collectBatch_nodup (fetch : String → Option FallbackResult) :
    ∀ (labels : List Label) (c : List DrugRecord) (seen : List String)
      {c2 : List DrugRecord} {s2 : List String},
      collectBatch fetch labels c seen = some (c2, s2) →
      (c.map DrugRecord.applicationNumber).Nodup →
      (∀ a ∈ c.map DrugRecord.applicationNumber, a ∈ seen) →
      (c2.map DrugRecord.applicationNumber).Nodup ∧
      ∀ a ∈ c2.map DrugRecord.applicationNumber, a ∈ s2 := by
  intro labels
  induction labels with
  | nil =>
    intro c seen c2 s2 h hnd hsub
    obtain ⟨rfl, rfl⟩ : c = c2 ∧ seen = s2 := by
      simpa [collectBatch] using h
    exact ⟨hnd, hsub⟩
  | cons lab rest ih =>
    intro c seen c2 s2 h hnd hsub
    simp only [collectBatch] at h
    split at h
    · exact absurd h (by simp)
    · exact ih c seen h hnd hsub
    · rename_i rec log heq
      split at h
      · exact ih c seen h hnd hsub
      · rename_i hmem
        have hnotin : rec.applicationNumber ∉
            c.map DrugRecord.applicationNumber :=
          fun hin => hmem (hsub _ hin)
        have hnd2 : ((c ++ [rec]).map DrugRecord.applicationNumber).Nodup := by
          rw [List.map_append, List.nodup_append]
          refine ⟨hnd, by simp, ?_⟩
          intro a ha hb
          have hab : a = rec.applicationNumber := by simpa using hb
          subst hab
          exact hnotin ha
        have hsub2 : ∀ a ∈ (c ++ [rec]).map DrugRecord.applicationNumber,
            a ∈ rec.applicationNumber :: seen := by
          intro a ha
          rw [List.map_append] at ha
          rcases List.mem_append.mp ha with ha | ha
          · exact List.mem_cons_of_mem _ (hsub _ ha)
          · exact List.mem_cons.mpr (Or.inl (by simpa using ha))
        split at h
        · obtain ⟨rfl, rfl⟩ : c ++ [rec] = c2 ∧
              rec.applicationNumber :: seen = s2 := by simpa using h
          exact ⟨hnd2, hsub2⟩
        · exact ih _ _ h hnd2 hsub2

theorem collectLoop_nodup (fetch : String → Option FallbackResult) :
    ∀ (batches : List (List Label)) (c : List DrugRecord)
      (seen : List String) {l : List DrugRecord},
      collectLoop fetch batches c seen = some l →
      (c.map DrugRecord.applicationNumber).Nodup →
      (∀ a ∈ c.map DrugRecord.applicationNumber, a ∈ seen) →
      (l.map DrugRecord.applicationNumber).Nodup := by
  intro batches
  induction batches with
  | nil =>
    intro c seen l h hnd hsub
    obtain rfl : c = l := by simpa [collectLoop] using h
    exact hnd
  | cons batch rest ih =>
    intro c seen l h hnd hsub
    simp only [collectLoop] at h
    split at h
    · obtain rfl : c = l := by simpa using h
      exact hnd
    · split at h
      · obtain rfl : c = l := by simpa using h
        exact hnd
      · split at h
        · exact absurd h (by simp)
        · rename_i c2 s2 heq
          obtain ⟨hnd2, hsub2⟩ := collectBatch_nodup fetch batch c seen heq
            hnd hsub
          exact ih c2 s2 h hnd2 hsub2

/-- C4: every successful run of the collection loop yields records with
pairwise distinct application numbers; a record whose application number
was already collected is dropped, leaving exactly one record per number. -/
theorem collected_app_numbers_nodup (fetch : String → Option FallbackResult)
    (batches : List (List Label)) (l : List DrugRecord)
    (h : collect_50_complete_drugs fetch batches = some l) :
    (l.map DrugRecord.applicationNumber).Nodup :=
  collectLoop_nodup fetch batches [] [] h (by simp) (by simp)

/-- Witness for C4: collecting three labels of which the second duplicates
the first's application number yields exactly the two distinct records,
and the theorem gives their pairwise-distinct application numbers. -/
theorem collected_app_numbers_nodup_witness :
    collect_50_complete_drugs fetchNone [[labFull, labDup, labThird]] =
      some [recFull, recThird] ∧
    ([recFull, recThird].map DrugRecord.applicationNumber).Nodup :=
  ⟨by decide,
   collected_app_numbers_nodup fetchNone [[labFull, labDup, labThird]]
     [recFull, recThird] (by decide)⟩

/-! ### Claim C5: termination and record count -/

theorem collectBatchAll_extends (fetch : String → Option FallbackResult) :
    ∀ (labels : List Label) (c : List DrugRecord) (seen : List String)
      {c2 : List DrugRecord} {s2 : List String},
      collectBatchAll fetch labels c seen = some (c2, s2) → c <+: c2 := by
  intro labels
  induction labels with
  | nil =>
    intro c seen c2 s2 h
    obtain ⟨rfl, rfl⟩ : c = c2 ∧ seen = s2 := by
      simpa [collectBatchAll] using h
    exact List.prefix_refl c
  | cons lab rest ih =>
    intro c seen c2 s2 h
    simp only [collectBatchAll] at h
    split at h
    · exact absurd h (by simp)
    · exact ih c seen h
    · split at h
      · exact ih c seen h
      · exact (List.prefix_append c _).trans (ih _ _ h)

theorem collectLoopAll_extends (fetch : String → Option FallbackResult) :
    ∀ (batches : List (List Label)) (c : List DrugRecord)
      (seen : List String) {l : List DrugRecord},
      collectLoopAll fetch batches c seen = some l → c <+: l := by
  intro batches
  induction batches with
  | nil =>
    intro c seen l h
    obtain rfl : c = l := by simpa [collectLoopAll] using h
    exact List.prefix_refl c
  | cons batch rest ih =>
    intro c seen l h
    simp only [collectLoopAll] at h
    split at h
    · obtain rfl : c = l := by simpa using h
      exact List.prefix_refl c
    · split at h
      · exact absurd h (by simp)
      · rename_i c2 s2 heq
        exact (collectBatchAll_extends fetch batch c seen heq).trans
          (ih c2 s2 h)

theorem collectLoop_of_full (fetch : String → Option FallbackResult)
    (batches : List (List Label)) (c : List DrugRecord) (seen : List String)
    (hc : 50 ≤ c.length) :
    collectLoop fetch batches c seen = some c := by
  cases batches with
  | nil => rfl
  | cons batch rest => simp only [collectLoop, if_pos hc]

theorem take_eq_take_of_extends {α : Type} {l1 l2 : List α} {n : Nat}
    (hpre : l1 <+: l2) (hn : n ≤ l1.length) : l2.take n = l1.take n := by
  obtain ⟨t, rfl⟩ := hpre
  exact List.take_append_of_le_length hn

theorem collectBatch_cap (fetch : String → Option FallbackResult) :
    ∀ (labels : List Label) (c : List DrugRecord) (seen : List String)
      {c2 : List DrugRecord} {s2 : List String},
      c.length < 50 →
      collectBatchAll fetch labels c seen = some (c2, s2) →
      (c2.length < 50 ∧ collectBatch fetch labels c seen = some (c2, s2)) ∨
      (50 ≤ c2.length ∧ ∃ s3,
        collectBatch fetch labels c seen = some (c2.take 50, s3)) := by
  intro labels
  induction labels with
  | nil =>
    intro c seen c2 s2 hc h
    obtain ⟨rfl, rfl⟩ : c = c2 ∧ seen = s2 := by
      simpa [collectBatchAll] using h
    exact Or.inl ⟨hc, rfl⟩
  | cons lab rest ih =>
    intro c seen c2 s2 hc h
    simp only [collectBatchAll] at h
    simp only [collectBatch]
    split at h
    · exact absurd h (by simp)
    · exact ih c seen hc h
    · rename_i rec log heq
      by_cases hmem : rec.applicationNumber ∈ seen
      · rw [if_pos hmem] at h
        rw [if_pos hmem]
        exact ih c seen hc h
      · rw [if_neg hmem] at h
        rw [if_neg hmem]
        by_cases h50 : 50 ≤ (c ++ [rec]).length
        · rw [if_pos h50]
          have hpre : c ++ [rec] <+: c2 :=
            collectBatchAll_extends fetch rest _ _ h
          have hlen : (c ++ [rec]).length = 50 := by
            simp only [List.length_append, List.length_cons,
              List.length_nil] at h50 ⊢
            omega
          refine Or.inr ⟨?_, rec.applicationNumber :: seen, ?_⟩
          · have hle := hpre.length_le
            omega
          · rw [take_eq_take_of_extends hpre h50,
              List.take_of_length_le (le_of_eq hlen)]
        · rw [if_neg h50]
          refine ih _ _ ?_ h
          simp only [List.length_append, List.length_cons,
            List.length_nil] at h50 ⊢
          omega

theorem collectLoop_cap (fetch : String → Option FallbackResult) :
    ∀ (batches : List (List Label)) (c : List DrugRecord)
      (seen : List String) {l : List DrugRecord},
      c.length ≤ 50 →
      collectLoopAll fetch batches c seen = some l →
      collectLoop fetch batches c seen = some (l.take 50) := by
  intro batches
  induction batches with
  | nil =>
    intro c seen l h hl
    obtain rfl : c = l := by simpa [collectLoopAll] using hl
    rw [collectLoop, List.take_of_length_le h]
  | cons batch rest ih =>
    intro c seen l hc hl
    simp only [collectLoopAll] at hl
    by_cases hc50 : 50 ≤ c.length
    · have hceq : c.length = 50 := le_antisymm hc hc50
      have hpre : c <+: l := by
        by_cases hbatch : batch.isEmpty
        · rw [if_pos hbatch] at hl
          obtain rfl : c = l := by simpa using hl
          exact List.prefix_refl c
        · rw [if_neg hbatch] at hl
          cases heq : collectBatchAll fetch batch c seen with
          | none => rw [heq] at hl; exact absurd hl (by simp)
          | some p =>
            obtain ⟨c2, s2⟩ := p
            rw [heq] at hl
            exact (collectBatchAll_extends fetch batch c seen heq).trans
              (collectLoopAll_extends fetch rest c2 s2 hl)
      rw [collectLoop, if_pos hc50,
        take_eq_take_of_extends hpre (le_of_eq hceq.symm),
        List.take_of_length_le (le_of_eq hceq)]
    · by_cases hbatch : batch.isEmpty
      · rw [if_pos hbatch] at hl
        obtain rfl : c = l := by simpa using hl
        rw [collectLoop, if_neg hc50, if_pos hbatch,
          List.take_of_length_le hc]
      · rw [if_neg hbatch] at hl
        cases heq : collectBatchAll fetch batch c seen with
        | none =>
          simp only [heq] at hl
          exact absurd hl (by simp)
        | some p =>
          obtain ⟨c2, s2⟩ := p
          simp only [heq] at hl
          rcases collectBatch_cap fetch batch c seen (by omega) heq with
            ⟨hlt, hcap⟩ | ⟨hge, s3, hcap⟩
          · rw [collectLoop, if_neg hc50, if_neg hbatch, hcap]
            show collectLoop fetch rest c2 s2 = some (l.take 50)
            exact ih c2 s2 (by omega) hl
          · rw [collectLoop, if_neg hc50, if_neg hbatch, hcap]
            show collectLoop fetch rest (c2.take 50) s3 = some (l.take 50)
            have htake : (c2.take 50).length = 50 := List.length_take_of_le hge
            rw [collectLoop_of_full fetch rest _ s3 (le_of_eq htake.symm)]
            have hpre2 : c2 <+: l := collectLoopAll_extends fetch rest c2 s2 hl
            rw [take_eq_take_of_extends hpre2 hge]

theorem collectBatch_le (fetch : String → Option FallbackResult) :
    ∀ (labels : List Label) (c : List DrugRecord) (seen : List String)
      {c2 : List DrugRecord} {s2 : List String},
      c.length < 50 →
      collectBatch fetch labels c seen = some (c2, s2) →
      c2.length ≤ 50 := by
  intro labels
  induction labels with
  | nil =>
    intro c seen c2 s2 hc h
    obtain ⟨rfl, rfl⟩ : c = c2 ∧ seen = s2 := by
      simpa [collectBatch] using h
    omega
  | cons lab rest ih =>
    intro c seen c2 s2 hc h
    simp only [collectBatch] at h
    split at h
    · exact absurd h (by simp)
    · exact ih c seen hc h
    · rename_i rec log heq
      split at h
      · exact ih c seen hc h
      · split at h
        · rename_i h50
          obtain ⟨rfl, rfl⟩ : c ++ [rec] = c2 ∧
              rec.applicationNumber :: seen = s2 := by simpa using h
          simp only [List.length_append, List.length_cons, List.length_nil]
          omega
        · rename_i h50
          refine ih _ _ ?_ h
          simp only [List.length_append, List.length_cons,
            List.length_nil] at h50 ⊢
          omega

theorem collectLoop_le (fetch : String → Option FallbackResult) :
    ∀ (batches : List (List Label)) (c : List DrugRecord)
      (seen : List String) {l : List DrugRecord},
      c.length ≤ 50 →
      collectLoop fetch batches c seen = some l →
      l.length ≤ 50 := by
  intro batches
  induction batches with
  | nil =>
    intro c seen l hc h
    obtain rfl : c = l := by simpa [collectLoop] using h
    exact hc
  | cons batch rest ih =>
    intro c seen l hc h
    simp only [collectLoop] at h
    split at h
    · obtain rfl : c = l := by simpa using h
      exact hc
    · split at h
      · obtain rfl : c = l := by simpa using h
        exact hc
      · rename_i hc50 hbatch
        split at h
        · exact absurd h (by simp)
        · rename_i c2 s2 heq
          exact ih c2 s2 (collectBatch_le fetch batch c seen (by omega) heq) h

/-- C5: the collection loop (which terminates by construction, recursing
structurally on the batch list) never returns more than 50 records; an
empty first batch ends it immediately with zero (fewer than 50) records;
and whenever the uncapped run of the same source yields `l`, the capped
loop returns exactly `l.take 50` — so it returns exactly 50 records when
the source yields at least 50 completable, uniquely-keyed labels before an
empty batch, and all of them (fewer than 50) when it yields fewer. -/
theorem collect_terminates_spec :
    (∀ (fetch : String → Option FallbackResult) (batches : List (List Label))
       (l : List DrugRecord),
       collect_50_complete_drugs fetch batches = some l → l.length ≤ 50) ∧
    (∀ (fetch : String → Option FallbackResult) (rest : List (List Label)),
       collect_50_complete_drugs fetch ([] :: rest) = some []) ∧
    (∀ (fetch : String → Option FallbackResult) (batches : List (List Label))
       (l : List DrugRecord),
       collectLoopAll fetch batches [] [] = some l →
       collect_50_complete_drugs fetch batches = some (l.take 50) ∧
       (50 ≤ l.length → (l.take 50).length = 50)) := by
  refine ⟨?_, ?_, ?_⟩
  · intro fetch batches l h
    exact collectLoop_le fetch batches [] [] (by simp) h
  · intro fetch rest
    rfl
  · intro fetch batches l h
    exact ⟨collectLoop_cap fetch batches [] [] (by simp) h,
      fun h50 => List.length_take_of_le h50⟩

/-- Witness for C5: on a source of one batch holding two completable
labels, the uncapped run yields both records and the capped collector
returns their first 50 (= both); on a source starting with an empty batch
it returns no records; and the returned list is within the 50-record cap. -/
theorem collect_terminates_spec_witness :
    collect_50_complete_drugs fetchNone ([] :: [[labFull]]) = some [] ∧
    collect_50_complete_drugs fetchNone [[labFull, labThird]] =
      some ([recFull, recThird].take 50) ∧
    ([recFull, recThird] : List DrugRecord).length ≤ 50 :=
  ⟨collect_terminates_spec.2.1 fetchNone [[labFull]],
   (collect_terminates_spec.2.2 fetchNone [[labFull, labThird]]
     [recFull, recThird] (by decide)).1,
   collect_terminates_spec.1 fetchNone [[labFull, labThird]]
     [recFull, recThird] (by decide)⟩

/-! ### Claim C6: normalization is idempotent and deduplicating -/

theorem data_mk (l : List Char) : (String.mk l).data = l := rfl

theorem mk_data (s : String) : String.mk s.data = s := rfl

theorem splitCommaChars_comma_cons (t : List Char) :
    splitCommaChars (',' :: t) = [] :: splitCommaChars t := by
  simp [splitCommaChars]

theorem splitCommaChars_cons_ne (c : Char) (hc : ¬ c = ',') (t p : List Char)
    (ps : List (List Char)) (h : splitCommaChars t = p :: ps) :
    splitCommaChars (c :: t) = (c :: p) :: ps := by
  simp only [splitCommaChars, if_neg hc]
  rw [h]

theorem splitCommaChars_ne_nil (l : List Char) : splitCommaChars l ≠ [] := by
  cases l with
  | nil => simp [splitCommaChars]
  | cons c cs =>
    simp only [splitCommaChars]
    split
    · simp
    · split <;> simp

theorem mem_splitCommaChars_no_comma :
    ∀ (l : List Char) (p : List Char), p ∈ splitCommaChars l → ',' ∉ p := by
  intro l
  induction l with
  | nil =>
    intro p hp
    simp only [splitCommaChars, List.mem_singleton] at hp
    subst hp
    simp
  | cons c cs ih =>
    intro p hp
    simp only [splitCommaChars] at hp
    by_cases hc : c = ','
    · rw [if_pos hc] at hp
      rcases List.mem_cons.mp hp with rfl | hp
      · simp
      · exact ih p hp
    · rw [if_neg hc] at hp
      cases hsp : splitCommaChars cs with
      | nil => exact absurd hsp (splitCommaChars_ne_nil cs)
      | cons q qs =>
        rw [hsp] at hp
        rcases List.mem_cons.mp hp with rfl | hp
        · intro hmem
          rcases List.mem_cons.mp hmem with h1 | h1
          · exact hc h1.symm
          · exact ih q (by rw [hsp]; exact List.mem_cons_self q qs) h1
        · exact ih p (by rw [hsp]; exact List.mem_cons_of_mem q hp)

theorem splitCommaChars_no_comma_eq (l : List Char) (h : ',' ∉ l) :
    splitCommaChars l = [l] := by
  induction l with
  | nil => rfl
  | cons c cs ih =>
    have hc : ¬ c = ',' := fun hcc => h (by rw [hcc]; exact List.mem_cons_self _ _)
    have hcs : ',' ∉ cs := fun hm => h (List.mem_cons_of_mem c hm)
    simp only [splitCommaChars, if_neg hc]
    rw [ih hcs]

theorem splitCommaChars_append :
    ∀ (a : List Char), ',' ∉ a →
    ∀ (r p : List Char) (ps : List (List Char)),
      splitCommaChars r = p :: ps →
      splitCommaChars (a ++ r) = (a ++ p) :: ps := by
  intro a
  induction a with
  | nil =>
    intro _ r p ps h
    simpa using h
  | cons c a2 ih =>
    intro ha r p ps h
    have hc : ¬ c = ',' :=
      fun hcc => ha (by rw [hcc]; exact List.mem_cons_self _ _)
    have ha2 : ',' ∉ a2 := fun hm => ha (List.mem_cons_of_mem c hm)
    rw [List.cons_append]
    exact splitCommaChars_cons_ne c hc _ _ _ (ih ha2 r p ps h)

theorem split_join_chars :
    ∀ (xs : List (List Char)) (x : List Char),
      ',' ∉ x → (∀ y ∈ xs, ',' ∉ y) →
      splitCommaChars (joinChars [',', ' '] (x :: xs)) =
        x :: xs.map (fun y => ' ' :: y) := by
  intro xs
  induction xs with
  | nil =>
    intro x hx _
    simp only [joinChars, List.map_nil]
    rw [splitCommaChars_no_comma_eq x hx]
  | cons y ys ih =>
    intro x hx hys
    have hy : ',' ∉ y := hys y (List.mem_cons_self y ys)
    have hys2 : ∀ z ∈ ys, ',' ∉ z :=
      fun z hz => hys z (List.mem_cons_of_mem y hz)
    have hrec := ih y hy hys2
    have h1 : splitCommaChars (' ' :: joinChars [',', ' '] (y :: ys)) =
        (' ' :: y) :: ys.map (fun z => ' ' :: z) :=
      splitCommaChars_cons_ne ' ' (by decide) _ _ _ hrec
    have h2 : splitCommaChars (',' :: ' ' :: joinChars [',', ' '] (y :: ys)) =
        [] :: (' ' :: y) :: ys.map (fun z => ' ' :: z) := by
      rw [splitCommaChars_comma_cons, h1]
    have h3 := splitCommaChars_append x hx _ _ _ h2
    have h4 : splitCommaChars
        (x ++ ([',', ' '] ++ joinChars [',', ' '] (y :: ys))) =
        (x ++ []) :: (' ' :: y) :: ys.map (fun z => ' ' :: z) := h3
    show splitCommaChars (x ++ [',', ' '] ++ joinChars [',', ' '] (y :: ys)) = _
    rw [List.append_assoc, h4, List.append_nil]
    rfl

theorem stripChars_cons_space (l : List Char) :
    stripChars (' ' :: l) = stripChars l := by
  unfold stripChars
  rw [List.dropWhile_cons, if_pos (by decide : pyIsSpace ' ' = true)]

theorem mem_stripChars {c : Char} {l : List Char} (h : c ∈ stripChars l) :
    c ∈ l := by
  unfold stripChars at h
  rw [List.mem_reverse] at h
  have h2 := (List.dropWhile_sublist pyIsSpace).subset h
  rw [List.mem_reverse] at h2
  exact (List.dropWhile_sublist pyIsSpace).subset h2

theorem mem_dedupFirstAux :
    ∀ (l seen : List String) (x : String),
      x ∈ dedupFirstAux seen l → x ∈ l ∧ x ∉ seen := by
  intro l
  induction l with
  | nil =>
    intro seen x hx
    simp [dedupFirstAux] at hx
  | cons a as ih =>
    intro seen x hx
    simp only [dedupFirstAux] at hx
    by_cases hmem : a ∈ seen
    · rw [if_pos hmem] at hx
      obtain ⟨h1, h2⟩ := ih seen x hx
      exact ⟨List.mem_cons_of_mem a h1, h2⟩
    · rw [if_neg hmem] at hx
      rcases List.mem_cons.mp hx with rfl | hx
      · exact ⟨List.mem_cons_self x as, hmem⟩
      · obtain ⟨h1, h2⟩ := ih (a :: seen) x hx
        exact ⟨List.mem_cons_of_mem a h1,
          fun hs => h2 (List.mem_cons_of_mem a hs)⟩

theorem dedupFirstAux_nodup :
    ∀ (l seen : List String), (dedupFirstAux seen l).Nodup := by
  intro l
  induction l with
  | nil => intro seen; simp [dedupFirstAux]
  | cons a as ih =>
    intro seen
    simp only [dedupFirstAux]
    by_cases hmem : a ∈ seen
    · rw [if_pos hmem]
      exact ih seen
    · rw [if_neg hmem]
      refine List.nodup_cons.mpr ⟨?_, ih (a :: seen)⟩
      intro hx
      exact (mem_dedupFirstAux as (a :: seen) a hx).2
        (List.mem_cons_self a seen)

theorem dedupFirstAux_eq_self :
    ∀ (l seen : List String), l.Nodup → (∀ x ∈ l, x ∉ seen) →
      dedupFirstAux seen l = l := by
  intro l
  induction l with
  | nil => intro seen _ _; rfl
  | cons a as ih =>
    intro seen hnd hdisj
    have hmem : a ∉ seen := hdisj a (List.mem_cons_self a as)
    simp only [dedupFirstAux, if_neg hmem]
    congr 1
    apply ih
    · exact (List.nodup_cons.mp hnd).2
    · intro x hx hs
      rcases List.mem_cons.mp hs with rfl | hs
      · exact (List.nodup_cons.mp hnd).1 hx
      · exact hdisj x (List.mem_cons_of_mem a hx) hs

theorem dedupFirst_nodup (l : List String) : (dedupFirst l).Nodup :=
  dedupFirstAux_nodup l []

theorem mem_dedupFirst {x : String} {l : List String}
    (h : x ∈ dedupFirst l) : x ∈ l :=
  (mem_dedupFirstAux l [] x h).1

theorem dedupFirst_eq_self {l : List String} (h : l.Nodup) :
    dedupFirst l = l :=
  dedupFirstAux_eq_self l [] h (by simp)

theorem normItems_spec (s : String) :
    ∀ x ∈ normItems s, x ≠ "" ∧ ',' ∉ x.data ∧ pyStrip x = x := by
  intro x hx
  have hx2 : x ∈ ((pySplitComma s).map pyStrip).filter (fun i => i ≠ "") :=
    mem_dedupFirst hx
  rw [List.mem_filter] at hx2
  obtain ⟨hx3, hne⟩ := hx2
  have hne2 : x ≠ "" := by simpa using hne
  rw [List.mem_map] at hx3
  obtain ⟨y, hy, rfl⟩ := hx3
  refine ⟨hne2, ?_, pyStrip_idem y⟩
  intro hcm
  have hc2 : ',' ∈ y.data := mem_stripChars hcm
  rw [pySplitComma, List.mem_map] at hy
  obtain ⟨p, hp, rfl⟩ := hy
  exact mem_splitCommaChars_no_comma s.data p hp hc2

theorem normItems_nodup (s : String) : (normItems s).Nodup :=
  dedupFirst_nodup _

theorem normItems_join (L : List String)
    (h1 : ∀ x ∈ L, x ≠ "") (h2 : ∀ x ∈ L, ',' ∉ x.data)
    (h3 : ∀ x ∈ L, pyStrip x = x) (h4 : L.Nodup) :
    normItems (pyJoinCommaSpace L) = L := by
  cases L with
  | nil => decide
  | cons x xs =>
    have hx : ',' ∉ x.data := h2 x (List.mem_cons_self x xs)
    have hxs : ∀ y ∈ xs.map String.data, ',' ∉ y := by
      intro y hy
      rw [List.mem_map] at hy
      obtain ⟨z, hz, rfl⟩ := hy
      exact h2 z (List.mem_cons_of_mem x hz)
    have hsplit := split_join_chars (xs.map String.data) x.data hx hxs
    have hA : pySplitComma (pyJoinCommaSpace (x :: xs)) =
        x :: xs.map (fun y => String.mk (' ' :: y.data)) := by
      show (splitCommaChars
        (joinChars [',', ' '] ((x :: xs).map String.data))).map String.mk = _
      rw [List.map_cons, hsplit, List.map_cons, List.map_map, List.map_map,
        mk_data]
      rfl
    have hB : (x :: xs.map (fun y => String.mk (' ' :: y.data))).map pyStrip =
        x :: xs := by
      rw [List.map_cons, List.map_map, h3 x (List.mem_cons_self x xs)]
      congr 1
      have hpt : ∀ y ∈ xs,
          (pyStrip ∘ fun y => String.mk (' ' :: y.data)) y = y := by
        intro y hy
        have hs : String.mk (stripChars (' ' :: y.data)) =
            String.mk (stripChars y.data) :=
          congrArg String.mk (stripChars_cons_space y.data)
        exact hs.trans (h3 y (List.mem_cons_of_mem x hy))
      rw [List.map_congr_left hpt]
      simp
    have hC : (x :: xs).filter (fun i => i ≠ "") = x :: xs :=
      List.filter_eq_self.mpr (fun a ha => by simpa using h1 a ha)
    show dedupFirst (((pySplitComma
      (pyJoinCommaSpace (x :: xs))).map pyStrip).filter (fun i => i ≠ "")) =
      x :: xs
    rw [hA, hB, hC, dedupFirst_eq_self h4]

theorem normalizeIngrString_idem (s : String) :
    normalizeIngrString (normalizeIngrString s) = normalizeIngrString s := by
  have h := normItems_spec s
  show pyJoinCommaSpace (normItems (pyJoinCommaSpace (normItems s))) =
    pyJoinCommaSpace (normItems s)
  rw [normItems_join (normItems s) (fun x hx => (h x hx).1)
    (fun x hx => (h x hx).2.1) (fun x hx => (h x hx).2.2)
    (normItems_nodup s)]

/-- C6: ingredient normalization is idempotent, both on a single ingredient
string and on whole record lists; its output items are duplicate-free; and
on the spec's example it removes the duplicate while preserving
first-occurrence order: "A, B, A, C" normalizes to "A, B, C". -/
theorem normalization_idempotent_dedup :
    (∀ s, normalizeIngrString (normalizeIngrString s) =
      normalizeIngrString s) ∧
    (∀ s, (normItems s).Nodup) ∧
    normalizeIngrString "A, B, A, C" = "A, B, C" ∧
    (∀ records, normalize_ingredients (normalize_ingredients records) =
      normalize_ingredients records) := by
  refine ⟨normalizeIngrString_idem, normItems_nodup, by decide, ?_⟩
  intro records
  simp only [normalize_ingredients, List.map_map]
  apply List.map_congr_left
  intro r _
  simp [Function.comp, normalizeIngrString_idem]
